import Mathlib

/-!
Verification of the hal5d certificate manager (package `internal/cert`,
with `cmd/hal5d` for flag defaults) against its specification.

Shallow embedding conventions:
* Go strings are `List Char`; Go byte slices are `List Nat` (each element a
  byte value).
* The flat TLS output directory is an association list from filename to
  content.  `afero.TempFile` is modelled by `tempName`, which produces a
  name with the requested prefix that is longer than every name currently
  in the directory (hence fresh, and never ending in `.pem`).
* Go maps (`secretRefs`, `forceHTTPSTable`, `keep`, `existing`) are
  association lists; map iteration order, unspecified in Go, becomes list
  order.
* `pkg/errors` error chains are the inductive `GoErr`; `errors.Wrap` adds a
  `wrap` node whose `Cause` is the inner error, and the `errInvalid`
  marker type is the `invalid` node.
* Filesystem syscalls on the in-memory filesystem never fail, except that
  `Remove` of a missing path fails, mirroring `afero.MemMapFs`.
-/

/-- Go string, as a list of characters. -/
abbrev Str := List Char

/-- Go byte slice, as a list of byte values. -/
abbrev Bytes := List Nat

/-- Byte view of a name string (`[]byte(s)` in Go). -/
def strBytes (s : Str) : Bytes := s.map Char.toNat

/-- Association-list lookup: the Go map read `l[k]` (first binding wins). -/
def alGet {κ ν : Type} [DecidableEq κ] : List (κ × ν) → κ → Option ν
  | [], _ => none
  | (k0, v0) :: r, k => if k0 = k then some v0 else alGet r k

/-- Association-list update: the Go map write `l[k] = v`. -/
def alSet {κ ν : Type} [DecidableEq κ] : List (κ × ν) → κ → ν → List (κ × ν)
  | [], k, v => [(k, v)]
  | (k0, v0) :: r, k, v => if k0 = k then (k, v) :: r else (k0, v0) :: alSet r k v

/-- Association-list removal: the Go map `delete(l, k)` / file removal. -/
def alRemove {κ ν : Type} [DecidableEq κ] (l : List (κ × ν)) (k : κ) : List (κ × ν) :=
  l.filter (fun e => !decide (e.1 = k))

/-- The TLS output directory: filename to file content. -/
abbrev Fs := List (Str × Bytes)

/-- The 32-bit FNV-1a over a byte sequence (`hash/fnv.New32a` fed these bytes). -/
def fnv1a32 (l : Bytes) : Nat :=
  l.foldl (fun h b => ((h ^^^ b % 256) * 16777619) % 4294967296) 2166136261

/-- Model of `certPairSuffix = ".pem"`. -/
def certPairSuffix : Str := ['.', 'p', 'e', 'm']

/-- Model of `certPairSeparator = "-"` (single character). -/
def certPairSep : Char := '-'

/-- Model of `strings.Split(s, "-")` for the single-character separator. -/
def splitOnC (c : Char) : Str → List Str
  | [] => [[]]
  | x :: xs =>
    match splitOnC c xs with
    | [] => [[]]
    | h :: t => if x = c then [] :: h :: t else (x :: h) :: t

/-- Model of `strings.HasSuffix`. -/
def hasSuffixL (l suf : Str) : Bool :=
  decide (suf.length ≤ l.length) && decide (l.drop (l.length - suf.length) = suf)

/-- A cert pair identity: `type certPair struct`. -/
structure certPair where
  Namespace : Str
  IngressName : Str
  SecretName : Str
deriving DecidableEq

/-- Model of `func newCertPair(filename string) (certPair, error)`: require the `.pem`
suffix, strip it, split on `-`, require exactly three parts. -/
def newCertPair (filename : Str) : Option certPair :=
  if hasSuffixL filename certPairSuffix then
    match splitOnC certPairSep (filename.take (filename.length - certPairSuffix.length)) with
    | [a, b, c] => some ⟨a, b, c⟩
    | _ => none
  else none

/-- Model of `func (c certPair) Filename() string`: `"%s-%s-%s.pem"`. -/
def certPair.Filename (c : certPair) : Str :=
  c.Namespace ++ certPairSep :: c.IngressName ++ certPairSep :: c.SecretName ++ certPairSuffix

/-- Model of `type certData struct`: a cert pair plus its certificate and key bytes. -/
structure certData where
  pair : certPair
  Cert : Bytes
  Key : Bytes
deriving DecidableEq

/-- Model of `func (c certData) Bytes() []byte`:
`bytes.Join([][]byte{c.Cert, c.Key}, []byte("\n"))`. -/
def certData.Bytes (c : certData) : Bytes := c.Cert ++ 10 :: c.Key

/-- The filename of a cert datum's pair. -/
def certData.Filename (c : certData) : Str := c.pair.Filename

/-- A `pkg/errors`-style error chain.  `wrap` is `errors.Wrap`/`Wrapf`
(whose `Cause` is the wrapped error); `invalid` is the `errInvalid`
marker struct, which implements `Invalid()` and does not expose `Cause`. -/
inductive GoErr where
  | base : String → GoErr
  | wrap : String → GoErr → GoErr
  | invalid : GoErr → GoErr
deriving DecidableEq

/-- Model of `func ErrInvalid(err error) error`. -/
def ErrInvalid (e : GoErr) : GoErr := .invalid e

/-- Model of `func IsInvalid(err error) bool`: walk the cause chain; an `errInvalid`
node answers true, a wrap node recurses into its cause, a bare error
answers false. -/
def IsInvalid : GoErr → Bool
  | .invalid _ => true
  | .wrap _ e => IsInvalid e
  | .base _ => false

/-- Model of `v1.TLSCertKey = "tls.crt"`. -/
def tlsCrtKey : Str := ['t', 'l', 's', '.', 'c', 'r', 't']

/-- Model of `v1.TLSPrivateKeyKey = "tls.key"`. -/
def tlsKeyKey : Str := ['t', 'l', 's', '.', 'k', 'e', 'y']

/-- Model of `annoAllowHTTP = "kubernetes.io/ingress.allow-http"`. -/
def annoAllowHTTP : Str :=
  "kubernetes.io/ingress.allow-http".toList

/-- A Kubernetes secret as consumed: namespace, name, data map. -/
structure Secret where
  Ns : Str
  Name : Str
  Data : List (Str × Bytes)
deriving DecidableEq

/-- An ingress rule, of which only `Host` is consumed. -/
structure IngressRule where
  Host : Str
deriving DecidableEq

/-- An ingress as consumed: namespace, name, TLS secret references in
order, rules, annotations. -/
structure Ingress where
  Ns : Str
  Name : Str
  TLS : List Str
  Rules : List IngressRule
  Annotations : List (Str × Str)
deriving DecidableEq

/-- Model of `i.GetAnnotations()[k]`: a missing key yields the empty string. -/
def annGet (a : List (Str × Str)) (k : Str) : Str := (alGet a k).getD []

/-- Model of `func collectHosts`: hosts of all rules with a non-empty host, in order. -/
def collectHosts (i : Ingress) : List Str :=
  (i.Rules.map IngressRule.Host).filter (fun h => !decide (h = []))

/-- Model of `strings.TrimSpace` (leading and trailing whitespace). -/
def trimSpace (s : Str) : Str :=
  ((s.dropWhile Char.isWhitespace).reverse.dropWhile Char.isWhitespace).reverse

/-- Model of `strings.ToLower`. -/
def toLowerStr (s : Str) : Str := s.map Char.toLower

/-- The literal `"false"`. -/
def falseStr : Str := ['f', 'a', 'l', 's', 'e']

/-- Model of `func (s allowHTTP) IsTrue() bool`: any trimmed, lowercased value other
than `"false"` counts as true. -/
def allowHTTP.IsTrue (s : Str) : Bool :=
  !decide (toLowerStr (trimSpace s) = falseStr)

/-- Model of `type metadata struct` is a (namespace, name) pair; `secretRefs` maps
the metadata of a secret to the set of ingress names referencing it. -/
abbrev secretRefs := List ((Str × Str) × List Str)

/-- Model of `func (r secretRefs) Get`. -/
def secretRefs.Get (r : secretRefs) (ns secretName : Str) : List Str :=
  (alGet r (ns, secretName)).getD []

/-- Model of `func (r secretRefs) Add`: insert `ingressName` into the set keyed by
the secret's metadata. -/
def secretRefs.Add (r : secretRefs) (ns ingressName secretName : Str) : secretRefs :=
  let cur := (alGet r (ns, secretName)).getD []
  if ingressName ∈ cur then r
  else alSet r (ns, secretName) (cur ++ [ingressName])

/-- Model of `func (r secretRefs) Delete`: remove `ingressName` from the set keyed
by the secret's metadata (the outer entry itself is kept, as in Go). -/
def secretRefs.Delete (r : secretRefs) (ns ingressName secretName : Str) : secretRefs :=
  match alGet r (ns, secretName) with
  | none => r
  | some cur => alSet r (ns, secretName) (cur.filter (fun n => !decide (n = ingressName)))

/-- Model of `type forceHTTPSMetadata struct` value: hosts plus the force flag. -/
abbrev forceHTTPSTable := List ((Str × Str) × (List Str × Bool))

/-- Model of `func (da forceHTTPSTable) Bytes()`: the hosts of all entries whose
force flag is set are collected in table order and joined with `"\n"`. -/
def forceHTTPSTable.Bytes (t : forceHTTPSTable) : Bytes :=
  strBytes (List.intercalate ['\n'] ((t.filter (fun e => e.2.2)).flatMap (fun e => e.2.1)))

/-- Model of `func (da forceHTTPSTable) Delete`. -/
def forceHTTPSTable.DeleteEntry (t : forceHTTPSTable) (ns ingressName : Str) : forceHTTPSTable :=
  alRemove t (ns, ingressName)

/-- Model of `func (da forceHTTPSTable) MarkForceHTTPS`: store the new value and
report whether it differed from the previous one (a missing entry reads
as the zero value, nil hosts and false). -/
def forceHTTPSTable.MarkForceHTTPS (t : forceHTTPSTable) (ns ingressName : Str)
    (force : Bool) (hosts : List Str) : forceHTTPSTable × Bool :=
  let old := (alGet t (ns, ingressName)).getD ([], false)
  (alSet t (ns, ingressName) (hosts, force), decide (old ≠ (hosts, force)))

/-- The secret store capability: `Get(namespace, name)` backed by the
watch cache, here an association list. -/
abbrev SecretStore := List ((Str × Str) × Secret)

/-- Model of `kubernetes.SecretStore.Get`. -/
def storeGet (st : SecretStore) (ns name : Str) : Option Secret := alGet st (ns, name)

/-- Immutable manager configuration: the secret store, the validator's
(fixed) verdict, and whether a force-HTTPS hosts file path was given
(`m.forceHTTPSHostsFile != ""`). -/
structure Config where
  store : SecretStore
  vOk : Bool
  hasForceFile : Bool
deriving DecidableEq

/-- Mutable manager state: the TLS directory, the two tables, and the
content of the force-HTTPS hosts file (`none` while it does not exist). -/
structure MState where
  fs : Fs
  refs : secretRefs
  tbl : forceHTTPSTable
  forceFile : Option Bytes
deriving DecidableEq

/-- One step of the write protocol, recorded for ordering arguments. -/
inductive FsOp where
  | createTemp : Str → FsOp
  | writeFile : Str → Bytes → FsOp
  | chmod : Str → FsOp
  | validate : FsOp
  | rename : Str → Str → FsOp
  | remove : Str → FsOp
deriving DecidableEq

/-- Model of `afero.TempFile(fs, dir, prefix)`: a fresh name with the requested
prefix.  Modelled as the prefix followed by more `t`s than the longest
name already in the directory, which is therefore fresh and, ending in
`t`, can never parse as a cert-pair name. -/
def tempName (fs : Fs) (c : certData) : Str :=
  c.Filename ++ List.replicate ((fs.map (fun e => e.1.length)).foldr max 0 + 1) 't'

/-- Result of `Manager.write`: the directory afterwards, the returned
error, and the chronological trace of protocol steps. -/
structure WriteOut where
  fs : Fs
  err : Option GoErr
  trace : List FsOp
deriving DecidableEq

/-- Model of `fs.Rename(src, dst)`: move the content of `src` to `dst`; renaming a
missing path fails and changes nothing. -/
def fsRename (l : Fs) (src dst : Str) : Fs :=
  match alGet l src with
  | none => l
  | some v => alRemove (alSet l dst v) src

/-- Model of `func (m *Manager) write(c certData) error`: create a temp file, write
`c.Bytes()`, fsync, close, chmod 0600, call the validator, and only on
its success rename the temp onto `tlsDir/c.Filename()`; the deferred
`Remove` of the temp name runs at exit either way.  A validator error is
returned wrapped as `ErrInvalid`. -/
def Manager.write (vOk : Bool) (fs : Fs) (c : certData) : WriteOut :=
  let t := tempName fs c
  let fs1 := alSet (alSet fs t []) t c.Bytes
  if vOk then
    { fs := alRemove (fsRename fs1 t c.Filename) t
      err := none
      trace := [.createTemp t, .writeFile t c.Bytes, .chmod t, .validate,
                .rename t c.Filename, .remove t] }
  else
    { fs := alRemove fs1 t
      err := some (ErrInvalid (.wrap
        "writing certificate pair would result in invalid configuration"
        (.base "validation webhook failed")))
      trace := [.createTemp t, .writeFile t c.Bytes, .chmod t, .validate, .remove t] }

/-- Model of `func (m *Manager) changed(c certData) bool`: true when the named file
cannot be opened, otherwise true iff the FNV-1a hash of `c.Bytes()`
differs from the hash of the file's content. -/
def Manager.changed (fs : Fs) (c : certData) : Bool :=
  match alGet fs c.Filename with
  | none => true
  | some content => !decide (fnv1a32 c.Bytes = fnv1a32 content)

/-- Model of `func (m *Manager) existing(namespace, ingressName)`: parse every
directory entry, skipping names that do not parse, and keep the pairs
whose namespace and ingress name match. -/
def Manager.existing (fs : Fs) (ns ingressName : Str) : List certPair :=
  fs.filterMap (fun e =>
    match newCertPair e.1 with
    | none => none
    | some c =>
      if c.Namespace = ns ∧ c.IngressName = ingressName then some c else none)

/-- Model of `func (m *Manager) writeForceHTTPSHosts() error`: a no-op when no
hosts-file path is configured; otherwise the table's `Bytes()` become the
file content via the temp-file-and-rename pattern. -/
def Manager.writeForceHTTPSHosts (cfg : Config) (tbl : forceHTTPSTable)
    (ff : Option Bytes) : Option Bytes :=
  if cfg.hasForceFile then some tbl.Bytes else ff

/-- Events emitted through the `event.Recorder`. -/
inductive REv where
  | write : Str → Str → Str → REv
  | del : Str → Str → Str → REv
  | invalidSecret : Str → Str → Str → REv
deriving DecidableEq

/-- Accumulator state threaded through the loops of the upsert and delete
routines. -/
structure UpState where
  fs : Fs
  refs : secretRefs
  keep : List certPair
  changed : Bool
  evs : List REv
  trace : List FsOp
deriving DecidableEq

/-- The body of the `for _, tls := range i.Spec.TLS` loop of
`upsertIngress`: register the reference, look up the secret and its two
keys (recording an invalid-secret event when any is missing), skip the
pair when it is listed and its hash is unchanged, and otherwise run the
write protocol. -/
def tlsStep (cfg : Config) (ns ingName : Str) (existing : List certPair)
    (st : UpState) (secretName : Str) : UpState :=
  let refs := st.refs.Add ns ingName secretName
  match storeGet cfg.store ns secretName with
  | none => { st with refs
                      evs := st.evs ++ [.invalidSecret ns ingName secretName] }
  | some s =>
    match alGet s.Data tlsCrtKey with
    | none => { st with refs
                        evs := st.evs ++ [.invalidSecret ns ingName s.Name] }
    | some cert =>
      match alGet s.Data tlsKeyKey with
      | none => { st with refs
                          evs := st.evs ++ [.invalidSecret ns ingName s.Name] }
      | some key =>
        let cp : certPair := ⟨ns, ingName, s.Name⟩
        let cd : certData := ⟨cp, cert, key⟩
        if existing.contains cp && !Manager.changed st.fs cd then
          { st with refs, keep := st.keep ++ [cp] }
        else
          let w := Manager.write cfg.vOk st.fs cd
          match w.err with
          | some e =>
            if IsInvalid e then
              { st with refs, fs := w.fs, trace := st.trace ++ w.trace
                        evs := st.evs ++ [.invalidSecret ns ingName s.Name] }
            else
              { st with refs, fs := w.fs, trace := st.trace ++ w.trace }
          | none =>
            { st with refs, fs := w.fs, trace := st.trace ++ w.trace
                      keep := st.keep ++ [cp], changed := true
                      evs := st.evs ++ [.write ns ingName s.Name] }

/-- The body of the stale-reaping `for cp := range existing` loop of
`upsertIngress`: remove the file of every pair not marked keep; on
success drop the secretRefs link, mark the batch changed and emit a
delete event (`Remove` of a missing path fails and changes nothing). -/
def staleStep (ns ingName : Str) (keep : List certPair)
    (st : UpState) (cp : certPair) : UpState :=
  if keep.contains cp then st
  else
    match alGet st.fs cp.Filename with
    | none => st
    | some _ =>
      { st with fs := alRemove st.fs cp.Filename
                refs := st.refs.Delete ns ingName cp.SecretName
                changed := true
                evs := st.evs ++ [.del ns ingName cp.SecretName] }

/-- Result of a top-level manager routine: the new state, the batch-changed
flag (which drives subscriber notification), the recorder events, and the
write-protocol trace. -/
structure OutR where
  st : MState
  changed : Bool
  evs : List REv
  trace : List FsOp
deriving DecidableEq

/-- Model of `forceHTTPS := !allowHTTP(annotations[annoAllowHTTP]).IsTrue()`. -/
def ingressForce (i : Ingress) : Bool :=
  !allowHTTP.IsTrue (annGet i.Annotations annoAllowHTTP)

/-- The `MarkForceHTTPS` call made at the top of `upsertIngress`. -/
def ingressMark (st : MState) (i : Ingress) : forceHTTPSTable × Bool :=
  st.tbl.MarkForceHTTPS i.Ns i.Name (ingressForce i) (collectHosts i)

/-- State after the `for _, tls := range i.Spec.TLS` loop of
`upsertIngress`, starting from the batch-changed flag the mark left. -/
def upsertTLSLoop (cfg : Config) (st : MState) (i : Ingress) : UpState :=
  i.TLS.foldl (tlsStep cfg i.Ns i.Name (Manager.existing st.fs i.Ns i.Name))
    ⟨st.fs, st.refs, [], (ingressMark st i).2, [], []⟩

/-- State after the stale-reaping loop of `upsertIngress`. -/
def upsertStaleLoop (cfg : Config) (st : MState) (i : Ingress) : UpState :=
  (Manager.existing st.fs i.Ns i.Name).foldl
    (staleStep i.Ns i.Name (upsertTLSLoop cfg st i).keep) (upsertTLSLoop cfg st i)

/-- Model of `func (m *Manager) upsertIngress(i) bool`: mark the force-HTTPS table
(rewriting the hosts file when the entry changed), list the existing
pairs, process every TLS reference, then reap stale pairs. -/
def Manager.upsertIngress (cfg : Config) (st : MState) (i : Ingress) : OutR :=
  let mark := ingressMark st i
  let ff1 := if mark.2 then Manager.writeForceHTTPSHosts cfg mark.1 st.forceFile
             else st.forceFile
  let s2 := upsertStaleLoop cfg st i
  { st := { fs := s2.fs, refs := s2.refs, tbl := mark.1, forceFile := ff1 }
    changed := s2.changed, evs := s2.evs, trace := s2.trace }

/-- The body of the `for ingressName := range m.secretRefs.Get(...)` loop
of `upsertSecret`. -/
def secretStep (cfg : Config) (s : Secret) (st : UpState) (ingName : Str) : UpState :=
  match alGet s.Data tlsCrtKey with
  | none => { st with evs := st.evs ++ [.invalidSecret s.Ns ingName s.Name] }
  | some cert =>
    match alGet s.Data tlsKeyKey with
    | none => { st with evs := st.evs ++ [.invalidSecret s.Ns ingName s.Name] }
    | some key =>
      let cp : certPair := ⟨s.Ns, ingName, s.Name⟩
      let cd : certData := ⟨cp, cert, key⟩
      if !Manager.changed st.fs cd then st
      else
        let w := Manager.write cfg.vOk st.fs cd
        match w.err with
        | some e =>
          if IsInvalid e then
            { st with fs := w.fs, trace := st.trace ++ w.trace
                      evs := st.evs ++ [.invalidSecret s.Ns ingName s.Name] }
          else
            { st with fs := w.fs, trace := st.trace ++ w.trace }
        | none =>
          { st with fs := w.fs, trace := st.trace ++ w.trace, changed := true
                    evs := st.evs ++ [.write s.Ns ingName s.Name] }

/-- State after the loop of `upsertSecret` over the referencing ingresses. -/
def upsertSecretLoop (cfg : Config) (st : MState) (s : Secret) : UpState :=
  (st.refs.Get s.Ns s.Name).foldl (secretStep cfg s) ⟨st.fs, st.refs, [], false, [], []⟩

/-- Model of `func (m *Manager) upsertSecret(s) bool`: rewrite the pair of every
referencing ingress whose hash changed.  The tables other than the
filesystem are untouched. -/
def Manager.upsertSecret (cfg : Config) (st : MState) (s : Secret) : OutR :=
  let s1 := upsertSecretLoop cfg st s
  { st := { fs := s1.fs, refs := s1.refs, tbl := st.tbl, forceFile := st.forceFile }
    changed := s1.changed, evs := s1.evs, trace := s1.trace }

/-- The body of the removal loop of `deleteIngress`: remove each listed
file, dropping the secretRefs link on success; no recorder event is
emitted. -/
def delIngStep (ns ingName : Str) (st : UpState) (cp : certPair) : UpState :=
  match alGet st.fs cp.Filename with
  | none => st
  | some _ =>
    { st with fs := alRemove st.fs cp.Filename
              refs := st.refs.Delete ns ingName cp.SecretName
              changed := true }

/-- State after the removal loop of `deleteIngress`. -/
def deleteIngressLoop (st : MState) (i : Ingress) : UpState :=
  (Manager.existing st.fs i.Ns i.Name).foldl (delIngStep i.Ns i.Name)
    ⟨st.fs, st.refs, [], false, [], []⟩

/-- Model of `func (m *Manager) deleteIngress(i) bool`: drop the force-HTTPS table
entry (without rewriting the hosts file), then remove every listed pair. -/
def Manager.deleteIngress (_cfg : Config) (st : MState) (i : Ingress) : OutR :=
  let s1 := deleteIngressLoop st i
  { st := { fs := s1.fs, refs := s1.refs, tbl := st.tbl.DeleteEntry i.Ns i.Name
            forceFile := st.forceFile }
    changed := s1.changed, evs := s1.evs, trace := s1.trace }

/-- The body of the removal loop of `deleteSecret`: remove the pair file
of each referencing ingress, emitting a delete event on success; the
secretRefs entry itself is left alone. -/
def delSecStep (s : Secret) (st : UpState) (ingName : Str) : UpState :=
  let cp : certPair := ⟨s.Ns, ingName, s.Name⟩
  match alGet st.fs cp.Filename with
  | none => st
  | some _ =>
    { st with fs := alRemove st.fs cp.Filename
              changed := true
              evs := st.evs ++ [.del s.Ns ingName s.Name] }

/-- State after the removal loop of `deleteSecret`. -/
def deleteSecretLoop (st : MState) (s : Secret) : UpState :=
  (st.refs.Get s.Ns s.Name).foldl (delSecStep s) ⟨st.fs, st.refs, [], false, [], []⟩

/-- Model of `func (m *Manager) deleteSecret(s) bool`. -/
def Manager.deleteSecret (_cfg : Config) (st : MState) (s : Secret) : OutR :=
  let s1 := deleteSecretLoop st s
  { st := { fs := s1.fs, refs := s1.refs, tbl := st.tbl, forceFile := st.forceFile }
    changed := s1.changed, evs := s1.evs, trace := s1.trace }

/-- An object delivered to the handlers: an ingress or a secret (objects
of other kinds are ignored by the switch and modelled away). -/
inductive KObj where
  | ing : Ingress → KObj
  | sec : Secret → KObj
deriving DecidableEq

/-- Model of `func (m *Manager) OnAdd(obj)`: route by kind and notify subscribers
iff the routine reported a change. -/
def Manager.OnAdd (cfg : Config) (st : MState) (o : KObj) : OutR :=
  match o with
  | .ing i => Manager.upsertIngress cfg st i
  | .sec s => Manager.upsertSecret cfg st s

/-- Model of `func (m *Manager) OnUpdate(_, newObj)` delegates to `OnAdd`. -/
def Manager.OnUpdate (cfg : Config) (st : MState) (_old newObj : KObj) : OutR :=
  Manager.OnAdd cfg st newObj

/-- Model of `func (m *Manager) OnDelete(obj)`. -/
def Manager.OnDelete (cfg : Config) (st : MState) (o : KObj) : OutR :=
  match o with
  | .ing i => Manager.deleteIngress cfg st i
  | .sec s => Manager.deleteSecret cfg st s

/-- Model of `func (m *Manager) notifySubscribers()` loops over the subscribers
calling `Changed()` once on each; a handler runs it iff its routine
returned true, so each subscriber receives this many `Changed()` calls
for one event. -/
def changedCallsPerSubscriber (r : OutR) : Nat := if r.changed then 1 else 0

/-- Rejoin split components with the separator (used to invert `splitOnC`). -/
def joinS (c : Char) : List Str → Str
  | [] => []
  | [a] => a
  | a :: b :: rest => a ++ c :: joinS c (b :: rest)

/-- Events that witness a committed filesystem change (a write or a
removal); invalid-secret events do not. -/
def isCommit : REv → Bool
  | .write _ _ _ => true
  | .del _ _ _ => true
  | .invalidSecret _ _ _ => false

/-- Whether a batch recorded at least one committed write or removal. -/
def hasCommit (evs : List REv) : Bool := evs.any isCommit

/-- Model of `defaultWebhookURLValidate` in `cmd/hal5d/main.go`. -/
def defaultWebhookURLValidate : Str := "http://localhost:15000/validate".toList

/-- Model of `defaultWebhookURLReload` in `cmd/hal5d/main.go` (declared but unused). -/
def defaultWebhookURLReload : Str := "http://localhost:15000/reload".toList

/-- The value of the `--reload-url` flag: the supplied value, or the
default the source wires in — which is literally
`.Default(defaultWebhookURLValidate)` in `main`. -/
def reloadURLFlagValue (supplied : Option Str) : Str :=
  supplied.getD defaultWebhookURLValidate

/-- The `coolSecret` fixture of `manager_test.go`. -/
def coolSecretFix : Secret :=
  ⟨"ns".toList, "coolSecret".toList,
   [(tlsCrtKey, strBytes "cert".toList), (tlsKeyKey, strBytes "key".toList)]⟩

/-- The `coolIngress` fixture of `manager_test.go`. -/
def coolIngressFix : Ingress :=
  ⟨"ns".toList, "coolIngress".toList, ["coolSecret".toList], [], []⟩

/-- Model of `TestUpsertDeleteUpsertSecret`: upsert the ingress against an empty
store, then upsert, delete and upsert again the secret. -/
def scnR1 : OutR := Manager.upsertIngress ⟨[], true, false⟩ ⟨[], [], [], none⟩ coolIngressFix

/-- Second step of the scenario: the secret arrives. -/
def scnR2 : OutR := Manager.upsertSecret ⟨[], true, false⟩ scnR1.st coolSecretFix

/-- Third step: the secret is deleted. -/
def scnR3 : OutR := Manager.deleteSecret ⟨[], true, false⟩ scnR2.st coolSecretFix

/-- Fourth step: the secret arrives again. -/
def scnR4 : OutR := Manager.upsertSecret ⟨[], true, false⟩ scnR3.st coolSecretFix


section AssocLemmas

variable {κ ν : Type} [DecidableEq κ]

theorem alGet_alSet_self (l : List (κ × ν)) (k : κ) (v : ν) :
    alGet (alSet l k v) k = some v := by
  induction l with
  | nil => simp [alSet, alGet]
  | cons e r ih =>
    by_cases h : e.1 = k
    · simp [alSet, alGet, h]
    · simp [alSet, alGet, h, ih]

theorem alGet_alSet_ne (l : List (κ × ν)) (k k' : κ) (v : ν) (h : k' ≠ k) :
    alGet (alSet l k v) k' = alGet l k' := by
  induction l with
  | nil => simp [alSet, alGet, Ne.symm h]
  | cons e r ih =>
    by_cases he : e.1 = k
    · simp [alSet, alGet, he, Ne.symm h]
    · simp [alSet, alGet, he, ih]

theorem alGet_alRemove_self (l : List (κ × ν)) (k : κ) :
    alGet (alRemove l k) k = none := by
  induction l with
  | nil => simp [alRemove, alGet]
  | cons e r ih =>
    by_cases h : e.1 = k
    · simpa [alRemove, List.filter_cons, h] using ih
    · simpa [alRemove, List.filter_cons, h, alGet] using ih

theorem alGet_alRemove_ne (l : List (κ × ν)) (k k' : κ) (h : k' ≠ k) :
    alGet (alRemove l k) k' = alGet l k' := by
  induction l with
  | nil => simp [alRemove, alGet]
  | cons e r ih =>
    by_cases he : e.1 = k
    · have hne : e.1 ≠ k' := by rw [he]; exact Ne.symm h
      have h1 : alRemove (e :: r) k = alRemove r k := by
        simp [alRemove, List.filter_cons, he]
      rw [h1, ih, alGet, if_neg hne]
    · have h1 : alRemove (e :: r) k = e :: alRemove r k := by
        simp [alRemove, List.filter_cons, he]
      rw [h1, alGet, alGet]
      by_cases hk : e.1 = k'
      · rw [if_pos hk, if_pos hk]
      · rw [if_neg hk, if_neg hk, ih]

theorem alGet_eq_none_iff (l : List (κ × ν)) (k : κ) :
    alGet l k = none ↔ ∀ e ∈ l, e.1 ≠ k := by
  induction l with
  | nil => simp [alGet]
  | cons e r ih =>
    by_cases h : e.1 = k
    · simp [alGet, h]
    · simp [alGet, h, ih]

theorem alSet_alSet_same (l : List (κ × ν)) (k : κ) (v w : ν) :
    alSet (alSet l k v) k w = alSet l k w := by
  induction l with
  | nil => simp [alSet]
  | cons e r ih =>
    by_cases h : e.1 = k
    · simp [alSet, h]
    · simp [alSet, h, ih]

theorem alSet_of_get_none (l : List (κ × ν)) (k : κ) (v : ν)
    (h : alGet l k = none) : alSet l k v = l ++ [(k, v)] := by
  induction l with
  | nil => simp [alSet]
  | cons e r ih =>
    obtain ⟨k0, v0⟩ := e
    rw [alGet] at h
    by_cases he : k0 = k
    · simp [he] at h
    · rw [alSet, if_neg he, ih (by simpa [he] using h), List.cons_append]

theorem alRemove_of_get_none (l : List (κ × ν)) (k : κ)
    (h : alGet l k = none) : alRemove l k = l := by
  induction l with
  | nil => simp [alRemove]
  | cons e r ih =>
    rw [alGet] at h
    by_cases he : e.1 = k
    · simp [he] at h
    · have h2 := ih (by simpa [he] using h)
      have h1 : alRemove (e :: r) k = e :: alRemove r k := by
        simp [alRemove, List.filter_cons, he]
      rw [h1, h2]

theorem alRemove_append (l m : List (κ × ν)) (k : κ) :
    alRemove (l ++ m) k = alRemove l k ++ alRemove m k := by
  simp [alRemove, List.filter_append]

theorem alSet_append_of_get_none (l m : List (κ × ν)) (k : κ) (v : ν)
    (h : alGet l k = none) : alSet (l ++ m) k v = l ++ alSet m k v := by
  induction l with
  | nil => simp
  | cons e r ih =>
    obtain ⟨k0, v0⟩ := e
    rw [alGet] at h
    by_cases he : k0 = k
    · simp [he] at h
    · rw [List.cons_append, alSet, if_neg he, ih (by simpa [he] using h), List.cons_append]

theorem alSet_append_of_get_some (l m : List (κ × ν)) (k : κ) (v u : ν)
    (h : alGet l k = some u) : alSet (l ++ m) k v = alSet l k v ++ m := by
  induction l with
  | nil => simp [alGet] at h
  | cons e r ih =>
    obtain ⟨k0, v0⟩ := e
    rw [alGet] at h
    by_cases he : k0 = k
    · rw [List.cons_append, alSet, if_pos he, alSet, if_pos he, List.cons_append]
    · rw [List.cons_append, alSet, if_neg he, alSet, if_neg he,
        ih (by simpa [he] using h), List.cons_append]

theorem mem_alSet (l : List (κ × ν)) (k : κ) (v : ν) (e : κ × ν)
    (h : e ∈ alSet l k v) : e ∈ l ∨ e = (k, v) := by
  induction l with
  | nil =>
    rw [alSet] at h
    right
    simpa using h
  | cons e0 r ih =>
    obtain ⟨k0, v0⟩ := e0
    by_cases he : k0 = k
    · rw [alSet, if_pos he] at h
      rcases List.mem_cons.mp h with h1 | h1
      · right; exact h1
      · left; exact List.mem_cons_of_mem _ h1
    · rw [alSet, if_neg he] at h
      rcases List.mem_cons.mp h with h1 | h1
      · left; rw [h1]; exact List.mem_cons_self _ _
      · rcases ih h1 with h2 | h2
        · left; exact List.mem_cons_of_mem _ h2
        · right; exact h2

theorem alGet_ne_none_of_mem (l : List (κ × ν)) (k : κ) (v : ν)
    (h : (k, v) ∈ l) : alGet l k ≠ none := by
  induction l with
  | nil => simp at h
  | cons e r ih =>
    rcases List.mem_cons.mp h with h | h
    · rw [alGet, ← h]; simp
    · rw [alGet]
      by_cases he : e.1 = k
      · simp [he]
      · simpa [he] using ih h

end AssocLemmas

section WriteLemmas

theorem tempName_length (fs : Fs) (c : certData) :
    (tempName fs c).length =
      c.Filename.length + ((fs.map (fun e => e.1.length)).foldr max 0 + 1) := by
  simp [tempName]

theorem le_foldr_max (n : Nat) (l : List Nat) (h : n ∈ l) : n ≤ l.foldr max 0 := by
  induction l with
  | nil => simp at h
  | cons m r ih =>
    rcases List.mem_cons.mp h with h1 | h1
    · simp [h1, Nat.le_max_left]
    · exact le_trans (ih h1) (Nat.le_max_right m _)

theorem alGet_tempName (fs : Fs) (c : certData) : alGet fs (tempName fs c) = none := by
  rw [alGet_eq_none_iff]
  intro e he hk
  have hmem : e.1.length ∈ fs.map (fun e => e.1.length) := List.mem_map_of_mem _ he
  have hle := le_foldr_max _ _ hmem
  have : e.1.length = (tempName fs c).length := by rw [hk]
  rw [tempName_length] at this
  omega

theorem tempName_ne_filename (fs : Fs) (c : certData) : tempName fs c ≠ c.Filename := by
  intro h
  have : (tempName fs c).length = c.Filename.length := by rw [h]
  rw [tempName_length] at this
  omega

/-- Renaming an existing source is an update of the destination followed
by removal of the source. -/
theorem fsRename_get_some (l : Fs) (src dst : Str) (v : Bytes)
    (h : alGet l src = some v) :
    fsRename l src dst = alRemove (alSet l dst v) src := by
  unfold fsRename
  split
  · next heq => rw [heq] at h; cases h
  · next v2 heq => rw [heq] at h; cases h; rfl

/-- On validator success the net effect of the write protocol on the
directory is exactly an update of the final path with the payload. -/
theorem write_ok_fs (fs : Fs) (c : certData) :
    (Manager.write true fs c).fs = alSet fs c.Filename c.Bytes := by
  have hfresh := alGet_tempName fs c
  have hne := tempName_ne_filename fs c
  set t := tempName fs c with ht
  have h1 : alSet (alSet fs t []) t c.Bytes = fs ++ [(t, c.Bytes)] := by
    rw [alSet_alSet_same, alSet_of_get_none _ _ _ hfresh]
  have hget1 : alGet (alSet (alSet fs t []) t c.Bytes) t = some c.Bytes :=
    alGet_alSet_self _ _ _
  have hw : (Manager.write true fs c).fs =
      alRemove (fsRename (alSet (alSet fs t []) t c.Bytes) t c.Filename) t := rfl
  rw [hw, fsRename_get_some _ _ _ _ hget1, h1]
  rcases hF : alGet fs c.Filename with _ | u
  · have h2 : alSet (fs ++ [(t, c.Bytes)]) c.Filename c.Bytes =
        fs ++ [(t, c.Bytes), (c.Filename, c.Bytes)] := by
      rw [alSet_append_of_get_none _ _ _ _ hF, alSet, if_neg hne, alSet]
    rw [h2, alRemove_append, alRemove_of_get_none _ _ hfresh]
    have h3 : alRemove [(t, c.Bytes), (c.Filename, c.Bytes)] t =
        [(c.Filename, c.Bytes)] := by
      simp [alRemove, List.filter_cons, Ne.symm hne]
    rw [h3, alRemove_append, alRemove_of_get_none _ _ hfresh]
    have h4 : alRemove [(c.Filename, c.Bytes)] t = [(c.Filename, c.Bytes)] := by
      simp [alRemove, List.filter_cons, Ne.symm hne]
    rw [h4, alSet_of_get_none _ _ _ hF]
  · have h2 : alSet (fs ++ [(t, c.Bytes)]) c.Filename c.Bytes =
        alSet fs c.Filename c.Bytes ++ [(t, c.Bytes)] :=
      alSet_append_of_get_some _ _ _ _ _ hF
    have hset : alGet (alSet fs c.Filename c.Bytes) t = none := by
      rw [alGet_alSet_ne _ _ _ _ hne]
      exact hfresh
    rw [h2, alRemove_append, alRemove_of_get_none _ _ hset]
    have h3 : alRemove [(t, c.Bytes)] t = ([] : Fs) := by
      simp [alRemove, List.filter_cons]
    rw [h3, List.append_nil, alRemove_of_get_none _ _ hset]

/-- On validator failure the write protocol leaves the directory exactly
as it was: the fresh temp file is created, written and removed again. -/
theorem write_fail_fs (fs : Fs) (c : certData) :
    (Manager.write false fs c).fs = fs := by
  have hfresh := alGet_tempName fs c
  set t := tempName fs c with ht
  have hw : (Manager.write false fs c).fs =
      alRemove (alSet (alSet fs t []) t c.Bytes) t := rfl
  rw [hw, alSet_alSet_same, alSet_of_get_none _ _ _ hfresh, alRemove_append,
    alRemove_of_get_none _ _ hfresh]
  simp [alRemove, List.filter_cons]

/-- The returned error is `none` exactly when the validator approved. -/
theorem write_err (vOk : Bool) (fs : Fs) (c : certData) :
    (Manager.write vOk fs c).err =
      if vOk then none
      else some (ErrInvalid (.wrap
        "writing certificate pair would result in invalid configuration"
        (.base "validation webhook failed"))) := by
  cases vOk <;> rfl

end WriteLemmas

section ParseLemmas

theorem splitOnC_ne_nil (c : Char) (l : Str) : splitOnC c l ≠ [] := by
  cases l with
  | nil => simp [splitOnC]
  | cons x xs =>
    rw [splitOnC]
    rcases h : splitOnC c xs with _ | ⟨hd, tl⟩
    · simp
    · by_cases hx : x = c <;> simp [hx]

theorem splitOnC_of_not_mem (c : Char) (a : Str) (h : c ∉ a) : splitOnC c a = [a] := by
  induction a with
  | nil => rfl
  | cons x xs ih =>
    have hx : x ≠ c := fun he => h (he ▸ List.mem_cons_self x xs)
    have hxs : c ∉ xs := fun hm => h (List.mem_cons_of_mem _ hm)
    simp [splitOnC, ih hxs, hx]

theorem splitOnC_append (c : Char) (a l : Str) (h : c ∉ a) :
    splitOnC c (a ++ c :: l) = a :: splitOnC c l := by
  induction a with
  | nil =>
    rcases hsp : splitOnC c l with _ | ⟨hd, tl⟩
    · exact absurd hsp (splitOnC_ne_nil c l)
    · simp [splitOnC, hsp]
  | cons x xs ih =>
    have hx : x ≠ c := fun he => h (he ▸ List.mem_cons_self x xs)
    have hxs : c ∉ xs := fun hm => h (List.mem_cons_of_mem _ hm)
    simp [splitOnC, ih hxs, hx]

theorem joinS_splitOnC (c : Char) (l : Str) : joinS c (splitOnC c l) = l := by
  induction l with
  | nil => rfl
  | cons x xs ih =>
    rcases hsp : splitOnC c xs with _ | ⟨hd, tl⟩
    · exact absurd hsp (splitOnC_ne_nil c xs)
    · rw [hsp] at ih
      by_cases hx : x = c
      · subst hx
        rw [splitOnC, hsp]
        simp only [if_pos rfl, joinS, List.nil_append]
        rw [ih]
      · rw [splitOnC, hsp]
        simp only [if_neg hx]
        cases tl with
        | nil =>
          simp only [joinS] at ih ⊢
          rw [ih]
        | cons t1 t2 =>
          simp only [joinS] at ih ⊢
          rw [List.cons_append, ih]

theorem hasSuffixL_append (l : Str) :
    hasSuffixL (l ++ certPairSuffix) certPairSuffix = true := by
  have hlen : (l ++ certPairSuffix).length - certPairSuffix.length = l.length := by
    simp [List.length_append]
  simp [hasSuffixL, hlen, List.drop_left, List.length_append]

theorem take_stem (l : Str) :
    (l ++ certPairSuffix).take ((l ++ certPairSuffix).length - certPairSuffix.length) = l := by
  have hlen : (l ++ certPairSuffix).length - certPairSuffix.length = l.length := by
    simp [List.length_append]
  rw [hlen, List.take_left]

/-- A triple whose components contain no separator parses back from its
filename (half of the round trip of claim C8). -/
theorem newCertPair_Filename (cp : certPair)
    (h1 : certPairSep ∉ cp.Namespace) (h2 : certPairSep ∉ cp.IngressName)
    (h3 : certPairSep ∉ cp.SecretName) :
    newCertPair cp.Filename = some cp := by
  have hstem : cp.Filename =
      (cp.Namespace ++ certPairSep :: (cp.IngressName ++ certPairSep :: cp.SecretName)) ++
        certPairSuffix := by
    simp [certPair.Filename]
  rw [hstem, newCertPair, if_pos (hasSuffixL_append _), take_stem,
    splitOnC_append _ _ _ h1, splitOnC_append _ _ _ h2, splitOnC_of_not_mem _ _ h3]

/-- Any filename accepted by `newCertPair` is reproduced by `Filename`
(the other half of the round trip of claim C8). -/
theorem Filename_newCertPair (f : Str) (cp : certPair)
    (h : newCertPair f = some cp) : cp.Filename = f := by
  rw [newCertPair] at h
  by_cases hs : hasSuffixL f certPairSuffix = true
  case neg => rw [if_neg hs] at h; cases h
  rw [if_pos hs] at h
  have hparts : certPairSuffix.length ≤ f.length ∧
      f.drop (f.length - certPairSuffix.length) = certPairSuffix := by
    simpa [hasSuffixL] using hs
  have hf : f.take (f.length - certPairSuffix.length) ++ certPairSuffix = f := by
    conv_rhs => rw [← List.take_append_drop (f.length - certPairSuffix.length) f]
    rw [hparts.2]
  have hjoin := joinS_splitOnC certPairSep (f.take (f.length - certPairSuffix.length))
  rcases hsp : splitOnC certPairSep (f.take (f.length - certPairSuffix.length)) with
    _ | ⟨a, _ | ⟨b, _ | ⟨c3, _ | ⟨d, rest⟩⟩⟩⟩ <;> rw [hsp] at h
  · cases h
  · cases h
  · cases h
  · injection h with hcp
    subst hcp
    rw [hsp] at hjoin
    simp only [joinS] at hjoin
    have hstem2 : certPair.Filename ⟨a, b, c3⟩ =
        (a ++ certPairSep :: (b ++ certPairSep :: c3)) ++ certPairSuffix := by
      simp [certPair.Filename]
    rw [hstem2, hjoin, hf]
  · cases h

/-- Every pair returned by `existing` parses from its own filename, has
the requested namespace and ingress name, and its file is present. -/
theorem mem_existing (fs : Fs) (ns ing : Str) (cp : certPair)
    (h : cp ∈ Manager.existing fs ns ing) :
    newCertPair cp.Filename = some cp ∧ cp.Namespace = ns ∧ cp.IngressName = ing ∧
      alGet fs cp.Filename ≠ none := by
  rw [Manager.existing, List.mem_filterMap] at h
  obtain ⟨e, he, hparse⟩ := h
  split at hparse
  · cases hparse
  · next c hp =>
    by_cases hcond : c.Namespace = ns ∧ c.IngressName = ing
    · rw [if_pos hcond] at hparse
      injection hparse with hcp
      subst hcp
      have hfn := Filename_newCertPair e.1 c hp
      refine ⟨?_, hcond.1, hcond.2, ?_⟩
      · rw [hfn]; exact hp
      · rw [hfn]; exact alGet_ne_none_of_mem fs e.1 e.2 he
    · rw [if_neg hcond] at hparse
      cases hparse

/-- Model of `Manager.changed` answers false exactly when the file is present with
a hash-equal content. -/
theorem changed_eq_false_iff (fs : Fs) (c : certData) :
    Manager.changed fs c = false ↔
      ∃ content, alGet fs c.Filename = some content ∧
        fnv1a32 c.Bytes = fnv1a32 content := by
  rcases h : alGet fs c.Filename with _ | content
  · rw [Manager.changed, h]
    simp [h]
  · rw [Manager.changed, h]
    simp [h]

end ParseLemmas

section FoldLemmas

theorem hasCommit_append (a b : List REv) :
    hasCommit (a ++ b) = (hasCommit a || hasCommit b) := by
  simp [hasCommit, List.any_append]

/-- The validator is consulted by every run of the write protocol. -/
theorem validate_mem_write_trace (vOk : Bool) (fs : Fs) (c : certData) :
    FsOp.validate ∈ (Manager.write vOk fs c).trace := by
  cases vOk <;> simp [Manager.write]

theorem foldl_fs_frame {α : Type} (f : UpState → α → UpState) (l : List α)
    (st : UpState) (n : Str)
    (h : ∀ x ∈ l, ∀ s, alGet (f s x).fs n = alGet s.fs n) :
    alGet (l.foldl f st).fs n = alGet st.fs n := by
  induction l generalizing st with
  | nil => rfl
  | cons x xs ih =>
    rw [List.foldl_cons, ih _ (fun y hy s => h y (List.mem_cons_of_mem _ hy) s),
      h x (List.mem_cons_self _ _) st]

theorem foldl_refs_eq {α : Type} (f : UpState → α → UpState) (l : List α)
    (st : UpState) (h : ∀ x ∈ l, ∀ s, (f s x).refs = s.refs) :
    (l.foldl f st).refs = st.refs := by
  induction l generalizing st with
  | nil => rfl
  | cons x xs ih =>
    rw [List.foldl_cons, ih _ (fun y hy s => h y (List.mem_cons_of_mem _ hy) s),
      h x (List.mem_cons_self _ _) st]

theorem foldl_changed_inv {α : Type} (f : UpState → α → UpState) (l : List α)
    (st : UpState) (b : Bool)
    (h : ∀ x ∈ l, ∀ s, s.changed = (b || hasCommit s.evs) →
      (f s x).changed = (b || hasCommit (f s x).evs))
    (h0 : st.changed = (b || hasCommit st.evs)) :
    (l.foldl f st).changed = (b || hasCommit (l.foldl f st).evs) := by
  induction l generalizing st with
  | nil => exact h0
  | cons x xs ih =>
    rw [List.foldl_cons]
    exact ih _ (fun y hy s => h y (List.mem_cons_of_mem _ hy) s)
      (h x (List.mem_cons_self _ _) st h0)

/-- A step of the TLS loop keeps the changed flag synchronised with the
presence of a committed write or removal among the recorded events. -/
theorem tlsStep_changed_inv (cfg : Config) (ns ing : Str) (ex : List certPair)
    (st : UpState) (tls : Str) (b : Bool)
    (h : st.changed = (b || hasCommit st.evs)) :
    (tlsStep cfg ns ing ex st tls).changed =
      (b || hasCommit ((tlsStep cfg ns ing ex st tls).evs)) := by
  simp only [tlsStep]
  split
  · simp [hasCommit_append, hasCommit, isCommit, h]
  · split
    · simp [hasCommit_append, hasCommit, isCommit, h]
    · split
      · simp [hasCommit_append, hasCommit, isCommit, h]
      · split
        · simp [h]
        · split
          · split
            · simp [hasCommit_append, hasCommit, isCommit, h]
            · simp [h]
          · simp [hasCommit_append, hasCommit, isCommit, h]

theorem staleStep_changed_inv (ns ing : Str) (keep : List certPair)
    (st : UpState) (cp : certPair) (b : Bool)
    (h : st.changed = (b || hasCommit st.evs)) :
    (staleStep ns ing keep st cp).changed =
      (b || hasCommit ((staleStep ns ing keep st cp).evs)) := by
  simp only [staleStep]
  split
  · exact h
  · split
    · exact h
    · simp [hasCommit_append, hasCommit, isCommit, h]

theorem secretStep_changed_inv (cfg : Config) (s : Secret)
    (st : UpState) (ing : Str) (b : Bool)
    (h : st.changed = (b || hasCommit st.evs)) :
    (secretStep cfg s st ing).changed =
      (b || hasCommit ((secretStep cfg s st ing).evs)) := by
  simp only [secretStep]
  split
  · simp [hasCommit_append, hasCommit, isCommit, h]
  · split
    · simp [hasCommit_append, hasCommit, isCommit, h]
    · split
      · exact h
      · split
        · split
          · simp [hasCommit_append, hasCommit, isCommit, h]
          · simp [h]
        · simp [hasCommit_append, hasCommit, isCommit, h]

theorem delSecStep_changed_inv (s : Secret) (st : UpState) (ing : Str) (b : Bool)
    (h : st.changed = (b || hasCommit st.evs)) :
    (delSecStep s st ing).changed = (b || hasCommit ((delSecStep s st ing).evs)) := by
  simp only [delSecStep]
  split
  · exact h
  · simp [hasCommit_append, hasCommit, isCommit, h]

end FoldLemmas

section FrameLemmas

theorem alGet_some_mem {κ ν : Type} [DecidableEq κ] (l : List (κ × ν)) (k : κ) (v : ν)
    (h : alGet l k = some v) : (k, v) ∈ l := by
  induction l with
  | nil => cases h
  | cons e r ih =>
    rw [alGet] at h
    by_cases he : e.1 = k
    · rw [if_pos he] at h
      injection h with hv
      have hkv : (k, v) = e := by
        obtain ⟨k0, v0⟩ := e
        simp only at he hv
        rw [he, hv]
      exact List.mem_cons.mpr (Or.inl hkv)
    · rw [if_neg he] at h
      exact List.mem_cons_of_mem _ (ih h)

theorem alRemove_length_le {κ ν : Type} [DecidableEq κ] (l : List (κ × ν)) (k : κ) :
    (alRemove l k).length ≤ l.length :=
  List.length_filter_le _ l

theorem alRemove_length_lt {κ ν : Type} [DecidableEq κ] (l : List (κ × ν)) (k : κ) (v : ν)
    (h : alGet l k = some v) : (alRemove l k).length < l.length := by
  induction l with
  | nil => cases h
  | cons e r ih =>
    rw [alGet] at h
    by_cases he : e.1 = k
    · have h1 : alRemove (e :: r) k = alRemove r k := by
        simp [alRemove, List.filter_cons, he]
      rw [h1, List.length_cons]
      exact Nat.lt_succ_of_le (alRemove_length_le r k)
    · rw [if_neg he] at h
      have h1 : alRemove (e :: r) k = e :: alRemove r k := by
        simp [alRemove, List.filter_cons, he]
      rw [h1, List.length_cons, List.length_cons]
      exact Nat.succ_lt_succ (ih h)

/-- Whatever the validator answers, the write protocol can only touch the
final path (the temp file never survives). -/
theorem write_fs_frame (vOk : Bool) (fs : Fs) (c : certData) (n : Str)
    (hne : n ≠ c.Filename) :
    alGet (Manager.write vOk fs c).fs n = alGet fs n := by
  cases vOk
  · rw [write_fail_fs]
  · rw [write_ok_fs, alGet_alSet_ne _ _ _ _ hne]

/-- A name that does not parse is distinct from any name that does. -/
theorem ne_of_parse_none (n m : Str) (hn : newCertPair n = none)
    (hm : newCertPair m ≠ none) : n ≠ m := by
  intro h
  rw [h] at hn
  exact hm hn

/-- The TLS loop leaves every file whose name does not parse untouched,
provided the event's names are separator-free and the store returns
secrets under their own names. -/
theorem tlsStep_fs_frame (cfg : Config) (ns ing : Str) (ex : List certPair)
    (st : UpState) (tls : Str) (n : Str)
    (hn : newCertPair n = none)
    (hns : certPairSep ∉ ns) (hing : certPairSep ∉ ing) (htls : certPairSep ∉ tls)
    (hco : ∀ s, storeGet cfg.store ns tls = some s → s.Name = tls) :
    alGet (tlsStep cfg ns ing ex st tls).fs n = alGet st.fs n := by
  simp only [tlsStep]
  split
  · rfl
  · next s hs =>
    have hname : s.Name = tls := hco s hs
    have hparse : newCertPair (certPair.Filename ⟨ns, ing, s.Name⟩) ≠ none := by
      rw [newCertPair_Filename ⟨ns, ing, s.Name⟩ hns hing (hname ▸ htls)]
      simp
    have hfr := fun cert key => write_fs_frame cfg.vOk st.fs ⟨⟨ns, ing, s.Name⟩, cert, key⟩ n
      (ne_of_parse_none n _ hn hparse)
    split
    · rfl
    · split
      · rfl
      · split
        · rfl
        · split
          · split
            · exact hfr _ _
            · exact hfr _ _
          · exact hfr _ _

/-- Reaping a pair whose filename parses leaves any non-parsing name
untouched. -/
theorem staleStep_fs_frame (ns ing : Str) (keep : List certPair)
    (st : UpState) (cp : certPair) (n : Str)
    (hn : newCertPair n = none) (hcp : newCertPair cp.Filename ≠ none) :
    alGet (staleStep ns ing keep st cp).fs n = alGet st.fs n := by
  simp only [staleStep]
  split
  · rfl
  · split
    · rfl
    · exact alGet_alRemove_ne _ _ _ (ne_of_parse_none n _ hn hcp)

theorem secretStep_fs_frame (cfg : Config) (s : Secret) (st : UpState) (ing : Str)
    (n : Str) (hn : newCertPair n = none)
    (hns : certPairSep ∉ s.Ns) (hing : certPairSep ∉ ing) (hsec : certPairSep ∉ s.Name) :
    alGet (secretStep cfg s st ing).fs n = alGet st.fs n := by
  have hparse : newCertPair (certPair.Filename ⟨s.Ns, ing, s.Name⟩) ≠ none := by
    rw [newCertPair_Filename ⟨s.Ns, ing, s.Name⟩ hns hing hsec]
    simp
  have hfr := fun cert key => write_fs_frame cfg.vOk st.fs ⟨⟨s.Ns, ing, s.Name⟩, cert, key⟩ n
    (ne_of_parse_none n _ hn hparse)
  simp only [secretStep]
  split
  · rfl
  · split
    · rfl
    · split
      · rfl
      · split
        · split
          · exact hfr _ _
          · exact hfr _ _
        · exact hfr _ _

theorem delIngStep_fs_frame (ns ing : Str) (st : UpState) (cp : certPair) (n : Str)
    (hn : newCertPair n = none) (hcp : newCertPair cp.Filename ≠ none) :
    alGet (delIngStep ns ing st cp).fs n = alGet st.fs n := by
  simp only [delIngStep]
  split
  · rfl
  · exact alGet_alRemove_ne _ _ _ (ne_of_parse_none n _ hn hcp)

theorem delSecStep_fs_frame (s : Secret) (st : UpState) (ing : Str) (n : Str)
    (hn : newCertPair n = none)
    (hns : certPairSep ∉ s.Ns) (hing : certPairSep ∉ ing) (hsec : certPairSep ∉ s.Name) :
    alGet (delSecStep s st ing).fs n = alGet st.fs n := by
  have hparse : newCertPair (certPair.Filename ⟨s.Ns, ing, s.Name⟩) ≠ none := by
    rw [newCertPair_Filename ⟨s.Ns, ing, s.Name⟩ hns hing hsec]
    simp
  simp only [delSecStep]
  split
  · rfl
  · exact alGet_alRemove_ne _ _ _ (ne_of_parse_none n _ hn hparse)

end FrameLemmas

section TopLevelLemmas

theorem upsertIngress_st_fs (cfg : Config) (st : MState) (i : Ingress) :
    (Manager.upsertIngress cfg st i).st.fs = (upsertStaleLoop cfg st i).fs := rfl

theorem upsertIngress_out_evs (cfg : Config) (st : MState) (i : Ingress) :
    (Manager.upsertIngress cfg st i).evs = (upsertStaleLoop cfg st i).evs := rfl

theorem upsertIngress_out_changed (cfg : Config) (st : MState) (i : Ingress) :
    (Manager.upsertIngress cfg st i).changed = (upsertStaleLoop cfg st i).changed := rfl

theorem upsertIngress_st_tbl (cfg : Config) (st : MState) (i : Ingress) :
    (Manager.upsertIngress cfg st i).st.tbl = (ingressMark st i).1 := rfl

theorem upsertSecret_st_fs (cfg : Config) (st : MState) (s : Secret) :
    (Manager.upsertSecret cfg st s).st.fs = (upsertSecretLoop cfg st s).fs := rfl

theorem upsertSecret_out (cfg : Config) (st : MState) (s : Secret) :
    (Manager.upsertSecret cfg st s).changed = (upsertSecretLoop cfg st s).changed ∧
      (Manager.upsertSecret cfg st s).evs = (upsertSecretLoop cfg st s).evs := ⟨rfl, rfl⟩

theorem deleteIngress_st_fs (cfg : Config) (st : MState) (i : Ingress) :
    (Manager.deleteIngress cfg st i).st.fs = (deleteIngressLoop st i).fs := rfl

theorem deleteSecret_st_fs (cfg : Config) (st : MState) (s : Secret) :
    (Manager.deleteSecret cfg st s).st.fs = (deleteSecretLoop st s).fs := rfl

/-- The changed flag of an ingress upsert is set exactly when the
force-HTTPS table entry changed or a write or removal was committed. -/
theorem upsertIngress_changed_eq (cfg : Config) (st : MState) (i : Ingress) :
    (Manager.upsertIngress cfg st i).changed =
      ((ingressMark st i).2 || hasCommit (Manager.upsertIngress cfg st i).evs) := by
  rw [upsertIngress_out_changed, upsertIngress_out_evs]
  rw [upsertStaleLoop]
  refine foldl_changed_inv _ _ _ _
    (fun x _ s hs => staleStep_changed_inv i.Ns i.Name _ s x _ hs) ?_
  rw [upsertTLSLoop]
  refine foldl_changed_inv _ _ _ _
    (fun x _ s hs => tlsStep_changed_inv cfg i.Ns i.Name _ s x _ hs) ?_
  simp [hasCommit]

/-- The changed flag of a secret upsert is set exactly when a write was
committed (recorded as a write event). -/
theorem upsertSecret_changed_eq (cfg : Config) (st : MState) (s : Secret) :
    (Manager.upsertSecret cfg st s).changed =
      hasCommit (Manager.upsertSecret cfg st s).evs := by
  have h := foldl_changed_inv (secretStep cfg s) (st.refs.Get s.Ns s.Name)
      ⟨st.fs, st.refs, [], false, [], []⟩ false
      (fun x _ s2 hs => secretStep_changed_inv cfg s s2 x false hs)
      (by simp [hasCommit])
  rw [(upsertSecret_out cfg st s).1, (upsertSecret_out cfg st s).2, upsertSecretLoop]
  simpa using h

/-- The changed flag of a secret delete is set exactly when a removal was
committed (recorded as a delete event). -/
theorem deleteSecret_changed_eq (cfg : Config) (st : MState) (s : Secret) :
    (Manager.deleteSecret cfg st s).changed =
      hasCommit (Manager.deleteSecret cfg st s).evs := by
  have h := foldl_changed_inv (delSecStep s) (st.refs.Get s.Ns s.Name)
      ⟨st.fs, st.refs, [], false, [], []⟩ false
      (fun x _ s2 hs => delSecStep_changed_inv s s2 x false hs)
      (by simp [hasCommit])
  show (deleteSecretLoop st s).changed = hasCommit (deleteSecretLoop st s).evs
  rw [deleteSecretLoop]
  simpa using h

theorem delIngStep_len_inv (ns ing : Str) (n0 : Nat) (st : UpState) (cp : certPair)
    (h1 : st.fs.length ≤ n0) (h2 : st.changed = decide (st.fs.length < n0)) :
    (delIngStep ns ing st cp).fs.length ≤ n0 ∧
      (delIngStep ns ing st cp).changed =
        decide ((delIngStep ns ing st cp).fs.length < n0) := by
  rcases hv : alGet st.fs cp.Filename with _ | v
  · simp only [delIngStep, hv]
    exact ⟨h1, h2⟩
  · simp only [delIngStep, hv]
    have hlt := alRemove_length_lt st.fs cp.Filename v hv
    exact ⟨le_trans (le_of_lt hlt) h1, by simp [Nat.lt_of_lt_of_le hlt h1]⟩

theorem foldl_delIng_len (ns ing : Str) (n0 : Nat) (l : List certPair) (st : UpState)
    (h1 : st.fs.length ≤ n0) (h2 : st.changed = decide (st.fs.length < n0)) :
    (l.foldl (delIngStep ns ing) st).fs.length ≤ n0 ∧
      (l.foldl (delIngStep ns ing) st).changed =
        decide ((l.foldl (delIngStep ns ing) st).fs.length < n0) := by
  induction l generalizing st with
  | nil => exact ⟨h1, h2⟩
  | cons x xs ih =>
    rw [List.foldl_cons]
    obtain ⟨g1, g2⟩ := delIngStep_len_inv ns ing n0 st x h1 h2
    exact ih _ g1 g2

/-- The changed flag of an ingress delete is set exactly when at least one
file was removed (which strictly shrinks the directory). -/
theorem deleteIngress_changed_eq (cfg : Config) (st : MState) (i : Ingress) :
    (Manager.deleteIngress cfg st i).changed =
      decide ((Manager.deleteIngress cfg st i).st.fs.length < st.fs.length) := by
  have h := foldl_delIng_len i.Ns i.Name st.fs.length
      (Manager.existing st.fs i.Ns i.Name) ⟨st.fs, st.refs, [], false, [], []⟩
      (le_refl _) (by simp)
  rw [deleteIngress_st_fs]
  show (deleteIngressLoop st i).changed = _
  rw [deleteIngressLoop]
  exact h.2

end TopLevelLemmas

section OpFrameLemmas

/-- During an ingress upsert with separator-free names and a store that
returns secrets under their own names, any file whose name does not parse
keeps its presence and content. -/
theorem upsertIngress_fs_frame (cfg : Config) (st : MState) (i : Ingress) (n : Str)
    (hn : newCertPair n = none)
    (hco : ∀ ns nm s2, storeGet cfg.store ns nm = some s2 → s2.Name = nm)
    (hns : certPairSep ∉ i.Ns) (hing : certPairSep ∉ i.Name)
    (htls : ∀ t ∈ i.TLS, certPairSep ∉ t) :
    alGet (Manager.upsertIngress cfg st i).st.fs n = alGet st.fs n := by
  rw [upsertIngress_st_fs, upsertStaleLoop]
  rw [foldl_fs_frame _ _ _ _ (fun cp hcp s3 =>
    staleStep_fs_frame i.Ns i.Name _ s3 cp n hn (by
      rw [(mem_existing st.fs i.Ns i.Name cp hcp).1]
      simp))]
  rw [upsertTLSLoop]
  exact foldl_fs_frame _ _ _ _ (fun t ht s3 =>
    tlsStep_fs_frame cfg i.Ns i.Name _ s3 t n hn hns hing (htls t ht)
      (fun s4 => hco i.Ns t s4))

/-- The analogue for a secret upsert. -/
theorem upsertSecret_fs_frame (cfg : Config) (st : MState) (s : Secret) (n : Str)
    (hn : newCertPair n = none)
    (hns : certPairSep ∉ s.Ns) (hsec : certPairSep ∉ s.Name)
    (hrefs : ∀ ing ∈ st.refs.Get s.Ns s.Name, certPairSep ∉ ing) :
    alGet (Manager.upsertSecret cfg st s).st.fs n = alGet st.fs n := by
  rw [upsertSecret_st_fs, upsertSecretLoop]
  exact foldl_fs_frame _ _ _ _ (fun ing hing s3 =>
    secretStep_fs_frame cfg s s3 ing n hn hns (hrefs ing hing) hsec)

/-- An ingress delete only removes pairs obtained from the listing, whose
names all parse, so non-parsing names are untouched unconditionally. -/
theorem deleteIngress_fs_frame (cfg : Config) (st : MState) (i : Ingress) (n : Str)
    (hn : newCertPair n = none) :
    alGet (Manager.deleteIngress cfg st i).st.fs n = alGet st.fs n := by
  rw [deleteIngress_st_fs, deleteIngressLoop]
  exact foldl_fs_frame _ _ _ _ (fun cp hcp s3 =>
    delIngStep_fs_frame i.Ns i.Name s3 cp n hn (by
      rw [(mem_existing st.fs i.Ns i.Name cp hcp).1]
      simp))

/-- The analogue for a secret delete. -/
theorem deleteSecret_fs_frame (cfg : Config) (st : MState) (s : Secret) (n : Str)
    (hn : newCertPair n = none)
    (hns : certPairSep ∉ s.Ns) (hsec : certPairSep ∉ s.Name)
    (hrefs : ∀ ing ∈ st.refs.Get s.Ns s.Name, certPairSep ∉ ing) :
    alGet (Manager.deleteSecret cfg st s).st.fs n = alGet st.fs n := by
  rw [deleteSecret_st_fs, deleteSecretLoop]
  exact foldl_fs_frame _ _ _ _ (fun ing hing s3 =>
    delSecStep_fs_frame s s3 ing n hn hns (hrefs ing hing) hsec)

end OpFrameLemmas

/-- C2: for every cert pair committed by `Manager.write` (the returned
error is nil), the byte sequence persisted at the final path
`"<namespace>-<ingressName>-<secretName>.pem"` is exactly the secret's
`tls.crt` bytes, a single 0x0A byte, then the `tls.key` bytes. -/
theorem C2_write_payload (vOk : Bool) (fs : Fs) (c : certData)
    (h : (Manager.write vOk fs c).err = none) :
    alGet (Manager.write vOk fs c).fs c.pair.Filename =
      some (c.Cert ++ 10 :: c.Key) := by
  cases vOk
  · rw [write_err] at h
    simp at h
  · rw [write_ok_fs]
    exact alGet_alSet_self _ _ _

/-- Witness for C2 at a concrete input. -/
theorem C2_write_payload_witness :
    (Manager.write true [] ⟨⟨['n'], ['i'], ['s']⟩, [1], [2]⟩).err = none ∧
      alGet (Manager.write true [] ⟨⟨['n'], ['i'], ['s']⟩, [1], [2]⟩).fs
        (certPair.Filename ⟨['n'], ['i'], ['s']⟩) = some [1, 10, 2] :=
  ⟨rfl, C2_write_payload true [] ⟨⟨['n'], ['i'], ['s']⟩, [1], [2]⟩ rfl⟩

/-- C3: every run of the write protocol consults the validator exactly
once and before any rename to the final path; a validator rejection
returns an error satisfying `IsInvalid` (still satisfied after one more
wrap layer), leaves the whole directory — in particular the final path —
unchanged with the temp file removed; and a rename occurs in the trace
only when the validator approved. -/
theorem C3_validator_protocol (vOk : Bool) (fs : Fs) (c : certData) :
    ((Manager.write vOk fs c).trace.countP (fun op => decide (op = .validate)) = 1) ∧
    (∀ k src dst, (Manager.write vOk fs c).trace.get? k = some (.rename src dst) →
      ∃ j, j < k ∧ (Manager.write vOk fs c).trace.get? j = some .validate) ∧
    (vOk = false →
      ∃ e, (Manager.write vOk fs c).err = some e ∧ IsInvalid e = true ∧
        (∀ msg, IsInvalid (.wrap msg e) = true) ∧
        (Manager.write vOk fs c).fs = fs ∧
        alGet (Manager.write vOk fs c).fs (tempName fs c) = none) ∧
    ((∃ src dst, FsOp.rename src dst ∈ (Manager.write vOk fs c).trace) → vOk = true) := by
  cases vOk
  · refine ⟨rfl, ?_, ?_, ?_⟩
    · intro k src dst h
      rcases k with _ | _ | _ | _ | _ | k5 <;> simp [Manager.write, List.get?] at h
    · intro _
      refine ⟨ErrInvalid (.wrap
          "writing certificate pair would result in invalid configuration"
          (.base "validation webhook failed")), rfl, rfl, fun msg => rfl, ?_, ?_⟩
      · exact write_fail_fs fs c
      · rw [write_fail_fs fs c]
        exact alGet_tempName fs c
    · rintro ⟨src, dst, hm⟩
      simp [Manager.write] at hm
  · refine ⟨rfl, ?_, ?_, fun _ => rfl⟩
    · intro k src dst h
      rcases k with _ | _ | _ | _ | _ | _ | k6 <;>
        simp [Manager.write, List.get?] at h
      exact ⟨3, by omega, rfl⟩
    · intro h
      cases h

/-- Witness for C3 at a concrete input with a failing validator. -/
theorem C3_validator_protocol_witness :
    (Manager.write false [] ⟨⟨['n'], ['i'], ['s']⟩, [1], [2]⟩).trace.countP
        (fun op => decide (op = FsOp.validate)) = 1 ∧
      (Manager.write false [] ⟨⟨['n'], ['i'], ['s']⟩, [1], [2]⟩).fs = [] := by
  have h := C3_validator_protocol false [] ⟨⟨['n'], ['i'], ['s']⟩, [1], [2]⟩
  obtain ⟨e, _, _, _, hfs, _⟩ := h.2.2.1 rfl
  exact ⟨h.1, hfs⟩

/-- C7: `allowHTTP.IsTrue` answers true exactly when the whitespace-
trimmed, lowercased value is not the literal `"false"`; consequently any
ingress upsert stores in the force-HTTPS table, under the ingress's key,
its collected hosts together with a force flag that is set exactly when
the `kubernetes.io/ingress.allow-http` annotation value trims and
lowercases to `"false"` (unset and any other value leave HTTP allowed). -/
theorem C7_allowHTTP (v : Str) (cfg : Config) (st : MState) (i : Ingress) :
    (allowHTTP.IsTrue v = true ↔ toLowerStr (trimSpace v) ≠ falseStr) ∧
      alGet (Manager.upsertIngress cfg st i).st.tbl (i.Ns, i.Name) =
        some (collectHosts i,
          decide (toLowerStr (trimSpace (annGet i.Annotations annoAllowHTTP)) =
            falseStr)) := by
  constructor
  · simp [allowHTTP.IsTrue]
  · have h : (ingressMark st i).1 =
        alSet st.tbl (i.Ns, i.Name) (collectHosts i, ingressForce i) := rfl
    rw [upsertIngress_st_tbl, h, alGet_alSet_self]
    have h2 : ingressForce i =
        decide (toLowerStr (trimSpace (annGet i.Annotations annoAllowHTTP)) =
          falseStr) := by
      simp [ingressForce, allowHTTP.IsTrue]
    rw [h2]

/-- C8: the round trip between cert-pair triples and filenames — a triple
whose components contain no separator (so in particular the triples the
claim describes, which also exclude a `.pem` suffix) parses back from its
own filename, and every filename `newCertPair` accepts is reproduced
exactly by `Filename` of the parsed pair. -/
theorem C8_roundtrip (cp : certPair) (f : Str)
    (h1 : certPairSep ∉ cp.Namespace) (h2 : certPairSep ∉ cp.IngressName)
    (h3 : certPairSep ∉ cp.SecretName) :
    newCertPair cp.Filename = some cp ∧
      (∀ cp2, newCertPair f = some cp2 → cp2.Filename = f) :=
  ⟨newCertPair_Filename cp h1 h2 h3, fun cp2 h => Filename_newCertPair f cp2 h⟩

/-- Witness for C8 at a concrete triple and filename. -/
theorem C8_roundtrip_witness :
    newCertPair (certPair.Filename ⟨['n'], ['i'], ['s']⟩) = some ⟨['n'], ['i'], ['s']⟩ ∧
      certPair.Filename ⟨['n'], ['i'], ['s']⟩ = "n-i-s.pem".toList := by
  have h := C8_roundtrip ⟨['n'], ['i'], ['s']⟩ "n-i-s.pem".toList
    (by decide) (by decide) (by decide)
  exact ⟨h.1, h.2 ⟨['n'], ['i'], ['s']⟩ (by decide)⟩

/-- C10: the claim says the reload webhook defaults to
`http://localhost:15000/reload`, and the source even declares that very
constant — but `main` wires the `--reload-url` flag's default to
`defaultWebhookURLValidate`, so an unset flag targets the validate URL. -/
theorem C10_reload_default_bug :
    reloadURLFlagValue none = defaultWebhookURLValidate ∧
      reloadURLFlagValue none ≠ defaultWebhookURLReload :=
  ⟨rfl, by decide⟩

/-- C4 counterexample: with the force-HTTPS table mapping ingress (n, i)
to hosts ["a"] with the force flag set and the hosts file containing "a",
deleting that ingress changes the table's logical content (its encoded
hosts drop from "a" to empty) yet the hosts file still contains the
deleted ingress's host — it is not rewritten. -/
theorem C4_counterexample :
    (Manager.deleteIngress ⟨[], true, true⟩
        ⟨[], [], [((['n'], ['i']), ([['a']], true))], some (strBytes ['a'])⟩
        ⟨['n'], ['i'], [], [], []⟩).st.forceFile = some (strBytes ['a']) ∧
      (Manager.deleteIngress ⟨[], true, true⟩
        ⟨[], [], [((['n'], ['i']), ([['a']], true))], some (strBytes ['a'])⟩
        ⟨['n'], ['i'], [], [], []⟩).st.tbl = [] ∧
      forceHTTPSTable.Bytes [((['n'], ['i']), ([['a']], true))] = strBytes ['a'] ∧
      forceHTTPSTable.Bytes ([] : forceHTTPSTable) = [] := by
  decide

/-- C4 (amended): `deleteIngress` removes the `(ns, name)` entry from the
force-HTTPS table but never rewrites the forced-HTTPS hosts file during
the delete event; the file keeps its previous content until a later
ingress upsert triggers a rewrite. -/
theorem C4_deleteIngress_table (cfg : Config) (st : MState) (i : Ingress) :
    (Manager.deleteIngress cfg st i).st.tbl = st.tbl.DeleteEntry i.Ns i.Name ∧
      (Manager.deleteIngress cfg st i).st.forceFile = st.forceFile :=
  ⟨rfl, rfl⟩

/-- C9: `deleteSecret` leaves the whole `secretRefs` table unchanged —
including the entry for the deleted secret — so in the tests' upsert-
delete-upsert scenario the second upsert of the same secret rewrites the
cert pair file without the ingress being observed again. -/
theorem C9_deleteSecret_refs (cfg : Config) (st : MState) (s : Secret) :
    ((Manager.deleteSecret cfg st s).st.refs = st.refs ∧
      ((Manager.deleteSecret cfg st s).st.refs.Get s.Ns s.Name =
        st.refs.Get s.Ns s.Name)) ∧
      (scnR3.st.refs = scnR2.st.refs ∧
        alGet scnR3.st.fs
          (certPair.Filename ⟨"ns".toList, "coolIngress".toList, "coolSecret".toList⟩) =
            none ∧
        alGet scnR4.st.fs
          (certPair.Filename ⟨"ns".toList, "coolIngress".toList, "coolSecret".toList⟩) =
            some (strBytes "cert".toList ++ 10 :: strBytes "key".toList)) := by
  have hrefs : (Manager.deleteSecret cfg st s).st.refs = st.refs := by
    show (deleteSecretLoop st s).refs = st.refs
    rw [deleteSecretLoop]
    exact foldl_refs_eq _ _ _ (fun ing hing s2 => by
      simp only [delSecStep]
      split <;> rfl)
  refine ⟨⟨hrefs, by rw [hrefs]⟩, ?_⟩
  decide

/-- C1 counterexample: upserting a previously unseen ingress that has one
rule host, no TLS references and no force-HTTPS hosts file configured
notifies the subscribers (the force-HTTPS table entry changed) although
no file was created, overwritten or removed and the forced-HTTPS file
content is unchanged — so notification is not equivalent to an observable
change as the claim defines it. -/
theorem C1_counterexample :
    (Manager.OnAdd ⟨[], true, false⟩ ⟨[], [], [], none⟩
        (.ing ⟨['n'], ['i'], [], [⟨['a']⟩], []⟩)).changed = true ∧
      changedCallsPerSubscriber (Manager.OnAdd ⟨[], true, false⟩ ⟨[], [], [], none⟩
        (.ing ⟨['n'], ['i'], [], [⟨['a']⟩], []⟩)) = 1 ∧
      (Manager.OnAdd ⟨[], true, false⟩ ⟨[], [], [], none⟩
        (.ing ⟨['n'], ['i'], [], [⟨['a']⟩], []⟩)).st.fs = [] ∧
      (Manager.OnAdd ⟨[], true, false⟩ ⟨[], [], [], none⟩
        (.ing ⟨['n'], ['i'], [], [⟨['a']⟩], []⟩)).st.forceFile = none ∧
      (Manager.OnAdd ⟨[], true, false⟩ ⟨[], [], [], none⟩
        (.ing ⟨['n'], ['i'], [], [⟨['a']⟩], []⟩)).evs = [] := by
  decide

/-- C1 (amended): each subscriber receives exactly one `Changed()` call
per event exactly when the batch-changed flag is set, and that flag holds
iff: for an ingress upsert, the force-HTTPS table entry changed — whether
or not a hosts file is configured or its content differs — or at least
one cert-pair write or removal was committed; for a secret upsert or
secret delete, at least one write or removal was committed; for an
ingress delete, at least one listed file was removed. -/
theorem C1_notify_iff (cfg : Config) (st : MState) (i : Ingress) (s : Secret) :
    changedCallsPerSubscriber (Manager.OnAdd cfg st (.ing i)) =
      (if (ingressMark st i).2 || hasCommit (Manager.OnAdd cfg st (.ing i)).evs
        then 1 else 0) ∧
    changedCallsPerSubscriber (Manager.OnAdd cfg st (.sec s)) =
      (if hasCommit (Manager.OnAdd cfg st (.sec s)).evs then 1 else 0) ∧
    changedCallsPerSubscriber (Manager.OnDelete cfg st (.sec s)) =
      (if hasCommit (Manager.OnDelete cfg st (.sec s)).evs then 1 else 0) ∧
    changedCallsPerSubscriber (Manager.OnDelete cfg st (.ing i)) =
      (if (Manager.OnDelete cfg st (.ing i)).st.fs.length < st.fs.length
        then 1 else 0) := by
  refine ⟨?_, ?_, ?_, ?_⟩
  · show (if (Manager.upsertIngress cfg st i).changed then (1 : Nat) else 0) = _
    rw [upsertIngress_changed_eq]
    rfl
  · show (if (Manager.upsertSecret cfg st s).changed then (1 : Nat) else 0) = _
    rw [upsertSecret_changed_eq]
    rfl
  · show (if (Manager.deleteSecret cfg st s).changed then (1 : Nat) else 0) = _
    rw [deleteSecret_changed_eq]
    rfl
  · show (if (Manager.deleteIngress cfg st i).changed then (1 : Nat) else 0) =
      (if (Manager.deleteIngress cfg st i).st.fs.length < st.fs.length then 1 else 0)
    rw [deleteIngress_changed_eq]
    by_cases h : (Manager.deleteIngress cfg st i).st.fs.length < st.fs.length <;>
      simp [h]

/-- C5: in the TLS loop of `upsertIngress`, a referenced pair that is
present in the directory listing and whose on-disk FNV-1a hash equals the
hash of the proposed payload is marked keep with no write, no validator
call, and the directory (hence the file's content) untouched; a write —
which always consults the validator — is attempted exactly when the pair
is absent from the listing or the hashes differ; `Manager.changed`
answers false exactly on present, hash-equal files; and the loop of
`upsertSecret` skips hash-unchanged pairs the same way. -/
theorem C5_hash_skip (cfg : Config) (ns ing : Str) (ex : List certPair)
    (st : UpState) (tls : Str) (s : Secret) (cert key : Bytes) (ing2 : Str)
    (hs : storeGet cfg.store ns tls = some s)
    (hcert : alGet s.Data tlsCrtKey = some cert)
    (hkey : alGet s.Data tlsKeyKey = some key) :
    (ex.contains ⟨ns, ing, s.Name⟩ = true →
      Manager.changed st.fs ⟨⟨ns, ing, s.Name⟩, cert, key⟩ = false →
      tlsStep cfg ns ing ex st tls =
        { st with refs := st.refs.Add ns ing tls
                  keep := st.keep ++ [⟨ns, ing, s.Name⟩] }) ∧
    ((ex.contains ⟨ns, ing, s.Name⟩ = false ∨
        Manager.changed st.fs ⟨⟨ns, ing, s.Name⟩, cert, key⟩ = true) →
      (tlsStep cfg ns ing ex st tls).trace =
        st.trace ++ (Manager.write cfg.vOk st.fs ⟨⟨ns, ing, s.Name⟩, cert, key⟩).trace ∧
      FsOp.validate ∈ (Manager.write cfg.vOk st.fs ⟨⟨ns, ing, s.Name⟩, cert, key⟩).trace) ∧
    (Manager.changed st.fs ⟨⟨ns, ing, s.Name⟩, cert, key⟩ = false ↔
      ∃ content, alGet st.fs (certPair.Filename ⟨ns, ing, s.Name⟩) = some content ∧
        fnv1a32 (cert ++ 10 :: key) = fnv1a32 content) ∧
    (Manager.changed st.fs ⟨⟨s.Ns, ing2, s.Name⟩, cert, key⟩ = false →
      secretStep cfg s st ing2 = st) := by
  refine ⟨fun hk hch => ?_, fun h => ?_, ?_, fun hch => ?_⟩
  · simp only [tlsStep, hs, hcert, hkey, hk, hch]
    rfl
  · have hcond : (ex.contains ⟨ns, ing, s.Name⟩ &&
        !Manager.changed st.fs ⟨⟨ns, ing, s.Name⟩, cert, key⟩) = false := by
      rcases h with h | h
      · rw [h, Bool.false_and]
      · rw [h]
        simp
    constructor
    · simp only [tlsStep, hs, hcert, hkey, hcond]
      rcases hw : (Manager.write cfg.vOk st.fs ⟨⟨ns, ing, s.Name⟩, cert, key⟩).err
        with _ | e
      · simp [hw]
      · by_cases hi : IsInvalid e = true <;> simp [hw, hi]
    · exact validate_mem_write_trace cfg.vOk st.fs ⟨⟨ns, ing, s.Name⟩, cert, key⟩
  · exact changed_eq_false_iff st.fs ⟨⟨ns, ing, s.Name⟩, cert, key⟩
  · simp only [secretStep, hcert, hkey, hch]
    rfl

/-- Witness for C5: the `UnchangedExistingCert` situation — the file is
listed and hash-equal, so the step only registers the reference and marks
the pair keep. -/
theorem C5_hash_skip_witness :
    tlsStep ⟨[((['n'], ['s']), ⟨['n'], ['s'], [(tlsCrtKey, [1]), (tlsKeyKey, [2])]⟩)],
        true, false⟩
      ['n'] ['i'] [⟨['n'], ['i'], ['s']⟩]
      ⟨[("n-i-s.pem".toList, [1, 10, 2])], [], [], false, [], []⟩ ['s'] =
      { fs := [("n-i-s.pem".toList, [1, 10, 2])]
        refs := secretRefs.Add [] ['n'] ['i'] ['s']
        keep := [⟨['n'], ['i'], ['s']⟩], changed := false, evs := [], trace := [] } := by
  have h := C5_hash_skip
    ⟨[((['n'], ['s']), ⟨['n'], ['s'], [(tlsCrtKey, [1]), (tlsKeyKey, [2])]⟩)], true, false⟩
    ['n'] ['i'] [⟨['n'], ['i'], ['s']⟩]
    ⟨[("n-i-s.pem".toList, [1, 10, 2])], [], [], false, [], []⟩ ['s']
    ⟨['n'], ['s'], [(tlsCrtKey, [1]), (tlsKeyKey, [2])]⟩ [1] [2] ['i']
    rfl rfl rfl
  exact h.1 (by decide) (by decide)

/-- C6 counterexample: the pre-existing file `n-a-b-s.pem` does not parse
as a cert-pair name (four dash-separated parts), yet upserting the
ingress named `a-b` — whose target paths are built by concatenation —
overwrites that very file. -/
theorem C6_counterexample :
    newCertPair "n-a-b-s.pem".toList = none ∧
      alGet [("n-a-b-s.pem".toList, [1, 2, 3])] "n-a-b-s.pem".toList =
        some [1, 2, 3] ∧
      alGet (Manager.upsertIngress
          ⟨[((['n'], ['s']), ⟨['n'], ['s'], [(tlsCrtKey, [9]), (tlsKeyKey, [8])]⟩)],
            true, false⟩
          ⟨[("n-a-b-s.pem".toList, [1, 2, 3])], [], [], none⟩
          ⟨['n'], "a-b".toList, [['s']], [], []⟩).st.fs
        "n-a-b-s.pem".toList = some [9, 10, 8] := by
  decide

/-- C6 (amended): files whose names do not parse are never listed or
reaped, and as long as the names of the event's resources contain no
separator (and the store returns secrets under their own names), every
file whose name does not parse keeps its presence and content across all
four event routines; an ingress delete preserves them unconditionally.
When a resource name contains `-`, the concatenated target path itself
fails to parse and such a file may be created, overwritten or removed. -/
theorem C6_frame (cfg : Config) (st : MState) (i : Ingress) (s : Secret) (n : Str)
    (hn : newCertPair n = none)
    (hco : ∀ ns nm s2, storeGet cfg.store ns nm = some s2 → s2.Name = nm) :
    (certPairSep ∉ i.Ns → certPairSep ∉ i.Name → (∀ t ∈ i.TLS, certPairSep ∉ t) →
      alGet (Manager.upsertIngress cfg st i).st.fs n = alGet st.fs n) ∧
    (certPairSep ∉ s.Ns → certPairSep ∉ s.Name →
      (∀ ing ∈ st.refs.Get s.Ns s.Name, certPairSep ∉ ing) →
      alGet (Manager.upsertSecret cfg st s).st.fs n = alGet st.fs n) ∧
    alGet (Manager.deleteIngress cfg st i).st.fs n = alGet st.fs n ∧
    (certPairSep ∉ s.Ns → certPairSep ∉ s.Name →
      (∀ ing ∈ st.refs.Get s.Ns s.Name, certPairSep ∉ ing) →
      alGet (Manager.deleteSecret cfg st s).st.fs n = alGet st.fs n) :=
  ⟨fun h1 h2 h3 => upsertIngress_fs_frame cfg st i n hn hco h1 h2 h3,
   fun h1 h2 h3 => upsertSecret_fs_frame cfg st s n hn h1 h2 h3,
   deleteIngress_fs_frame cfg st i n hn,
   fun h1 h2 h3 => deleteSecret_fs_frame cfg st s n hn h1 h2 h3⟩

/-- Witness for C6 at a concrete state: a file named `x` (which does not
parse) survives an ingress upsert and an ingress delete untouched. -/
theorem C6_frame_witness :
    alGet (Manager.deleteIngress ⟨[], true, false⟩ ⟨[(['x'], [1])], [], [], none⟩
        ⟨['n'], ['i'], [], [], []⟩).st.fs ['x'] = some [1] ∧
      alGet (Manager.upsertIngress ⟨[], true, false⟩ ⟨[(['x'], [1])], [], [], none⟩
        ⟨['n'], ['i'], [], [], []⟩).st.fs ['x'] = some [1] := by
  have h := C6_frame ⟨[], true, false⟩ ⟨[(['x'], [1])], [], [], none⟩
      ⟨['n'], ['i'], [], [], []⟩ ⟨['n'], ['i'], []⟩ ['x'] (by decide)
      (fun ns nm s2 hs => Option.noConfusion hs)
  constructor
  · rw [h.2.2.1]
    decide
  · rw [h.1 (by decide) (by decide) (by intro t ht; cases ht)]
    decide
